import Mathlib

/-!
# Verification of the Veilocity private-state engine core

Shallow embedding of the Rust sources of `veilocity-core` (merkle.rs,
account.rs, state.rs, poseidon.rs) and the relevant parts of
`veilocity-cli` (commands/sync.rs, commands/withdraw.rs), together with
proofs of the behavioural claims about them.

Modelling conventions:
* `FieldElement` (BN254 scalar field `ark_bn254::Fr`) is `ZMod bn254r`.
* The Poseidon permutations live in the external `light-poseidon` crate
  (not part of this repository); the four arities are therefore taken as
  opaque function parameters `hash1`, `hash2`, `hash3` of the operations
  that use them, exactly as the code threads a `PoseidonHasher` value.
* Rust `u128` / `u64` values are natural numbers; wrap-around is made
  explicit (`% 2 ^ 64`) where the source performs unchecked `+=`.
* Fallible Rust functions returning `Result<_, CoreError>` become
  `Except CoreError _`.
* Byte arrays `[u8; 32]` / `[u8; 20]` are functions `Fin 32 → Fin 256` /
  `Fin 20 → Fin 256`.
-/

/-- Order of the BN254 scalar field (the modulus of `ark_bn254::Fr`). -/
def bn254r : ℕ := 21888242871839275222246405745257275088548364400416034343698204186575808495617

/-- `FieldElement` from poseidon.rs: an element of the BN254 scalar field. -/
abbrev FieldElement := ZMod bn254r

/-- A single byte (`u8`). -/
abbrev Byte := Fin 256

/-- `[u8; 32]`. -/
abbrev Bytes32 := Fin 32 → Byte

/-- `[u8; 20]` (an EVM address). -/
abbrev Bytes20 := Fin 20 → Byte

instance : NeZero bn254r := ⟨by decide⟩

/-- Big-endian byte-list to natural number, mirroring `u128::from_be_bytes`
(and `from_be_bytes_mod_order` before the reduction): fold that shifts the
accumulator by one byte and adds the next byte. -/
def beBytesToNat (bs : List ℕ) : ℕ :=
  bs.foldl (fun acc b => acc * 256 + b) 0

/-- `bytes_to_field` from poseidon.rs: big-endian 32 bytes reduced mod the
field order (`from_be_bytes_mod_order`). -/
def bytes_to_field (bs : Bytes32) : FieldElement :=
  ((beBytesToNat (List.ofFn fun i : Fin 32 => ((bs i : ℕ)))) : FieldElement)

/-- `field_to_bytes` from poseidon.rs: canonical big-endian 32-byte encoding
of the reduced representative. -/
def field_to_bytes (f : FieldElement) : Bytes32 :=
  fun i => ⟨f.val / 256 ^ (31 - (i : ℕ)) % 256, Nat.mod_lt _ (by norm_num)⟩

/-- `u128_to_field` from poseidon.rs (`Fr::from(u128)`). -/
def u128_to_field (v : ℕ) : FieldElement := (v : FieldElement)

/-- `u64_to_field` from poseidon.rs (`Fr::from(u64)`). -/
def u64_to_field (v : ℕ) : FieldElement := (v : FieldElement)

/-- `CoreError` from error.rs (variants carrying strings keep the value the
string was built from: `NullifierUsed` carries the nullifier whose hex
encoding the source stores, `AccountNotFound` carries no payload here). -/
inductive CoreError where
  | InvalidMerkleProof : CoreError
  | AccountNotFound : CoreError
  | InsufficientBalance (haveAmt needAmt : ℕ) : CoreError
  | NullifierUsed (n : Bytes32) : CoreError
  | InvalidFieldElement : CoreError
  | TreeFull : CoreError
  | InvalidSecretKey : CoreError

/-! ## Merkle engine (merkle.rs) -/

/-- `TREE_DEPTH` from merkle.rs. -/
def TREE_DEPTH : ℕ := 20

/-- `MAX_LEAVES` from merkle.rs (`1 << TREE_DEPTH`). -/
def MAX_LEAVES : ℕ := 2 ^ TREE_DEPTH

/-- The precomputed empty-subtree hashes of `MerkleTree::new`:
`empty_hashes[0] = hash2(0,0)`, `empty_hashes[i] = hash2(e[i-1], e[i-1])`. -/
def emptyHash (hash2 : FieldElement → FieldElement → FieldElement) : ℕ → FieldElement
  | 0 => hash2 0 0
  | k + 1 => hash2 (emptyHash hash2 k) (emptyHash hash2 k)

/-- `MerkleTree` from merkle.rs.  The per-level sparse `HashMap<u64, F>`
storage becomes a function `level → index → Option F`; the `empty_hashes`
array is the function `emptyHash` (it is a pure function of the hasher and
is never mutated), and the hasher itself is passed to each operation. -/
structure MerkleTree where
  leaf_count : ℕ
  nodes : ℕ → ℕ → Option FieldElement
  root : FieldElement

/-- `MerkleTree::new`. -/
def MerkleTree.new (hash2 : FieldElement → FieldElement → FieldElement) : MerkleTree :=
  { leaf_count := 0
    nodes := fun _ _ => none
    root := emptyHash hash2 TREE_DEPTH }

/-- `self.nodes[level].insert(index, v)`. -/
def setNode (nodes : ℕ → ℕ → Option FieldElement) (level idx : ℕ) (v : FieldElement) :
    ℕ → ℕ → Option FieldElement :=
  fun l i => if l = level ∧ i = idx then some v else nodes l i

/-- `self.nodes[level].get(&i).copied().unwrap_or(self.empty_hashes[level])`. -/
def getNode (hash2 : FieldElement → FieldElement → FieldElement)
    (nodes : ℕ → ℕ → Option FieldElement) (level idx : ℕ) : FieldElement :=
  (nodes level idx).getD (emptyHash hash2 level)

/-- The sibling index: `ci + 1` for an even `ci`, `ci - 1` for an odd one. -/
def sibIdx (ci : ℕ) : ℕ := if ci % 2 = 0 then ci + 1 else ci - 1

/-- The parent hash, ordered by the parity of the current index: an even
index is the left child. -/
def parentHash (hash2 : FieldElement → FieldElement → FieldElement)
    (ci : ℕ) (ch sh : FieldElement) : FieldElement :=
  if ci % 2 = 0 then hash2 ch sh else hash2 sh ch

/-- The path-rewriting loop of `MerkleTree::update_leaf`: starting at
`(level, current_index, current_hash)`, for `remaining` iterations read the
sibling, hash in parity order, store the parent one level up and move up.
Returns the final node map and the running hash (the new root when the loop
covers all levels). -/
def updatePath (hash2 : FieldElement → FieldElement → FieldElement)
    (nodes : ℕ → ℕ → Option FieldElement) (level remaining ci : ℕ) (ch : FieldElement) :
    (ℕ → ℕ → Option FieldElement) × FieldElement :=
  match remaining with
  | 0 => (nodes, ch)
  | r + 1 =>
      let ph := parentHash hash2 ci ch (getNode hash2 nodes level (sibIdx ci))
      updatePath hash2 (setNode nodes (level + 1) (ci / 2) ph) (level + 1) r (ci / 2) ph

/-- `MerkleTree::update_leaf` (it always returns `Ok(())` in the source, so
it is a total function here). -/
def MerkleTree.update_leaf (hash2 : FieldElement → FieldElement → FieldElement)
    (t : MerkleTree) (index : ℕ) (leaf : FieldElement) : MerkleTree :=
  let res := updatePath hash2 (setNode t.nodes 0 index leaf) 0 TREE_DEPTH index leaf
  { leaf_count := t.leaf_count, nodes := res.1, root := res.2 }

/-- `MerkleTree::insert`. -/
def MerkleTree.insert (hash2 : FieldElement → FieldElement → FieldElement)
    (t : MerkleTree) (leaf : FieldElement) : Except CoreError MerkleTree :=
  if t.leaf_count ≥ MAX_LEAVES then .error .TreeFull
  else
    let t' := t.update_leaf hash2 t.leaf_count leaf
    .ok { t' with leaf_count := t.leaf_count + 1 }

/-- The sibling-collecting loop of `MerkleTree::get_proof`. -/
def proofLoop (hash2 : FieldElement → FieldElement → FieldElement)
    (nodes : ℕ → ℕ → Option FieldElement) (level remaining ci : ℕ) : List FieldElement :=
  match remaining with
  | 0 => []
  | r + 1 =>
      getNode hash2 nodes level (sibIdx ci) :: proofLoop hash2 nodes (level + 1) r (ci / 2)

/-- `MerkleTree::get_proof`. -/
def MerkleTree.get_proof (hash2 : FieldElement → FieldElement → FieldElement)
    (t : MerkleTree) (index : ℕ) : List FieldElement :=
  proofLoop hash2 t.nodes 0 TREE_DEPTH index

/-- `MerkleTree::get_leaf`. -/
def MerkleTree.get_leaf (t : MerkleTree) (index : ℕ) : Option FieldElement :=
  t.nodes 0 index

/-- The folding loop of `MerkleTree::verify_proof`. -/
def verifyLoop (hash2 : FieldElement → FieldElement → FieldElement)
    (ch : FieldElement) (ci : ℕ) : List FieldElement → FieldElement
  | [] => ch
  | sib :: rest =>
      verifyLoop hash2 (parentHash hash2 ci ch sib) (ci / 2) rest

/-- `MerkleTree::verify_proof` (the tree argument is only the carrier of the
hasher in the source; the check itself is stateless). -/
def MerkleTree.verify_proof (hash2 : FieldElement → FieldElement → FieldElement)
    (_t : MerkleTree) (leaf : FieldElement) (index : ℕ) (proof : List FieldElement)
    (root : FieldElement) : Bool :=
  if proof.length ≠ TREE_DEPTH then false
  else decide (verifyLoop hash2 leaf index proof = root)

/-- A sequence of `insert` calls (the loop of the round-trip scenario). -/
def insertAll (hash2 : FieldElement → FieldElement → FieldElement) :
    MerkleTree → List FieldElement → Except CoreError MerkleTree
  | t, [] => .ok t
  | t, x :: xs =>
      match t.insert hash2 x with
      | .error e => .error e
      | .ok t' => insertAll hash2 t' xs

/-- The tree obtained by inserting a list of leaves into a fresh tree
(total: when an insert fails the fresh tree is returned; the theorems only
use it when every insert succeeds). -/
def buildFrom (hash2 : FieldElement → FieldElement → FieldElement)
    (ls : List FieldElement) : MerkleTree :=
  match insertAll hash2 (MerkleTree.new hash2) ls with
  | .ok t => t
  | .error _ => MerkleTree.new hash2

/-! ## Account model (account.rs) -/

/-- `u128::MAX`. -/
def U128_MAX : ℕ := 2 ^ 128 - 1

/-- `u128::checked_add` for in-range operands: `none` exactly when the sum
does not fit in 128 bits. -/
def u128CheckedAdd (a b : ℕ) : Option ℕ :=
  if a + b < 2 ^ 128 then some (a + b) else none

/-- `u128::saturating_add` (checked addition falling back to `u128::MAX`). -/
def u128SaturatingAdd (a b : ℕ) : ℕ :=
  (u128CheckedAdd a b).getD U128_MAX

/-- `PrivateAccount` from account.rs. -/
structure PrivateAccount where
  pubkey : Bytes32
  balance : ℕ
  nonce : ℕ
  index : ℕ

/-- `PrivateAccount::credit`: `self.balance = self.balance.saturating_add(amount)`. -/
def PrivateAccount.credit (a : PrivateAccount) (amount : ℕ) : PrivateAccount :=
  { a with balance := u128SaturatingAdd a.balance amount }

/-- `PrivateAccount::debit`.  `self.nonce += 1` is unchecked `u64`
arithmetic, hence the explicit wrap-around modulo `2 ^ 64`.  The returned
`Bool` is the function's return value, paired with the mutated account. -/
def PrivateAccount.debit (a : PrivateAccount) (amount : ℕ) : Bool × PrivateAccount :=
  if a.balance ≥ amount then
    (true, { a with balance := a.balance - amount, nonce := (a.nonce + 1) % 2 ^ 64 })
  else
    (false, a)

/-- `PrivateAccount::compute_leaf`:
`hash3(pubkey_field, balance_field, nonce_field)`. -/
def PrivateAccount.compute_leaf
    (hash3 : FieldElement → FieldElement → FieldElement → FieldElement)
    (a : PrivateAccount) : FieldElement :=
  hash3 (bytes_to_field a.pubkey) (u128_to_field a.balance) (u64_to_field a.nonce)

/-! ## State manager (state.rs)

The SQLite tables are modelled by in-memory lists (rows in insertion
order); the `balance_encrypted` 16-byte little-endian blob is modelled by
the `u128` value it encodes, and the wall-clock `created_at`/`updated_at`
columns are omitted (no operation reads them back). -/

/-- A row of the `accounts` table. -/
structure AccountRow where
  pubkey : Bytes32
  balance : ℕ
  nonce : ℕ
  leaf_index : ℕ

/-- A row of the `transactions` table (`data` JSON flattened to its
`amount` component; `tx_hash`/`recipient` do not participate in any
claim). -/
structure TxRow where
  id : ℕ
  tx_type : String
  amount : ℕ
  status : String

/-- `StateManager` from state.rs: the in-memory tree and nullifier cache,
plus the persistent tables. -/
structure StateManager where
  tree : MerkleTree
  used_nullifiers : Finset Bytes32
  dbNullifiers : List Bytes32
  dbAccounts : List AccountRow
  dbTransactions : List TxRow
  syncCheckpoint : Option ℕ

/-- `StateManager::in_memory` (fresh schema, empty tables, fresh tree). -/
def StateManager.in_memory (hash2 : FieldElement → FieldElement → FieldElement) :
    StateManager :=
  { tree := MerkleTree.new hash2
    used_nullifiers := ∅
    dbNullifiers := []
    dbAccounts := []
    dbTransactions := []
    syncCheckpoint := none }

/-- `StateManager::is_nullifier_used`. -/
def StateManager.is_nullifier_used (s : StateManager) (n : Bytes32) : Bool :=
  decide (n ∈ s.used_nullifiers)

/-- `StateManager::mark_nullifier_used`: error on a duplicate (before any
mutation), otherwise insert into the in-memory set and append to the
`nullifiers` table. -/
def StateManager.mark_nullifier_used (s : StateManager) (n : Bytes32) :
    Except CoreError StateManager :=
  if n ∈ s.used_nullifiers then .error (.NullifierUsed n)
  else
    .ok { s with
          used_nullifiers := insert n s.used_nullifiers
          dbNullifiers := s.dbNullifiers ++ [n] }

/-- `StateManager::create_account`: assign the next leaf index, build the
account from the secret, insert its leaf (which can fail with `TreeFull`
before anything is written), then append the database row. -/
def StateManager.create_account
    (hash1 : FieldElement → FieldElement)
    (hash2 : FieldElement → FieldElement → FieldElement)
    (hash3 : FieldElement → FieldElement → FieldElement → FieldElement)
    (s : StateManager) (secret : FieldElement) (initial_balance : ℕ) :
    Except CoreError (PrivateAccount × StateManager) :=
  let index := s.tree.leaf_count
  let account : PrivateAccount :=
    { pubkey := field_to_bytes (hash1 secret)
      balance := initial_balance
      nonce := 0
      index := index }
  let leaf := account.compute_leaf hash3
  match s.tree.insert hash2 leaf with
  | .error e => .error e
  | .ok tree' =>
      .ok (account,
        { s with
          tree := tree'
          dbAccounts := s.dbAccounts ++
            [{ pubkey := account.pubkey
               balance := initial_balance
               nonce := 0
               leaf_index := index }] })

/-- `StateManager::update_account`: run the SQL `UPDATE … WHERE
leaf_index = account.index` (a no-op on rows that do not match — in
particular when no row matches at all), then unconditionally rewrite the
tree leaf at `account.index`. -/
def StateManager.update_account
    (hash2 : FieldElement → FieldElement → FieldElement)
    (hash3 : FieldElement → FieldElement → FieldElement → FieldElement)
    (s : StateManager) (account : PrivateAccount) : Except CoreError StateManager :=
  let leaf := account.compute_leaf hash3
  .ok { s with
        dbAccounts := s.dbAccounts.map fun row =>
          if row.leaf_index = account.index then
            { row with balance := account.balance, nonce := account.nonce }
          else row
        tree := s.tree.update_leaf hash2 account.index leaf }

/-- `StateManager::insert_leaf` (returns the index the leaf got). -/
def StateManager.insert_leaf (hash2 : FieldElement → FieldElement → FieldElement)
    (s : StateManager) (leaf : FieldElement) : Except CoreError (ℕ × StateManager) :=
  let index := s.tree.leaf_count
  match s.tree.insert hash2 leaf with
  | .error e => .error e
  | .ok tree' => .ok (index, { s with tree := tree' })

/-- `StateManager::set_sync_checkpoint`. -/
def StateManager.set_sync_checkpoint (s : StateManager) (block : ℕ) :
    Except CoreError StateManager :=
  .ok { s with syncCheckpoint := some block }

/-- `StateManager::record_transaction` (id from `last_insert_rowid`,
modelled as the next row count). -/
def StateManager.record_transaction (s : StateManager)
    (tx_type : String) (amount : ℕ) (status : String) :
    Except CoreError (ℕ × StateManager) :=
  let id := s.dbTransactions.length + 1
  .ok (id, { s with
             dbTransactions := s.dbTransactions ++
               [{ id := id, tx_type := tx_type, amount := amount, status := status }] })

/-- `StateManager::update_transaction_status`. -/
def StateManager.update_transaction_status (s : StateManager) (id : ℕ) (status : String) :
    Except CoreError StateManager :=
  .ok { s with
        dbTransactions := s.dbTransactions.map fun row =>
          if row.id = id then { row with status := status } else row }

/-- The mutating operations of `StateManager`'s public interface. -/
inductive SMOp where
  | markNullifierUsed (n : Bytes32) : SMOp
  | createAccount (secret : FieldElement) (initial_balance : ℕ) : SMOp
  | updateAccount (account : PrivateAccount) : SMOp
  | insertLeaf (leaf : FieldElement) : SMOp
  | setSyncCheckpoint (block : ℕ) : SMOp
  | recordTransaction (tx_type : String) (amount : ℕ) (status : String) : SMOp
  | updateTransactionStatus (id : ℕ) (status : String) : SMOp

/-- Run one operation; on an error the state is unchanged (every modelled
operation checks its error condition before mutating, as the source does). -/
def applySMOp (hash1 : FieldElement → FieldElement)
    (hash2 : FieldElement → FieldElement → FieldElement)
    (hash3 : FieldElement → FieldElement → FieldElement → FieldElement)
    (op : SMOp) (s : StateManager) : StateManager :=
  match op with
  | .markNullifierUsed n =>
      match s.mark_nullifier_used n with
      | .ok s' => s'
      | .error _ => s
  | .createAccount secret bal =>
      match s.create_account hash1 hash2 hash3 secret bal with
      | .ok (_, s') => s'
      | .error _ => s
  | .updateAccount account =>
      match s.update_account hash2 hash3 account with
      | .ok s' => s'
      | .error _ => s
  | .insertLeaf leaf =>
      match s.insert_leaf hash2 leaf with
      | .ok (_, s') => s'
      | .error _ => s
  | .setSyncCheckpoint b =>
      match s.set_sync_checkpoint b with
      | .ok s' => s'
      | .error _ => s
  | .recordTransaction ty amt st =>
      match s.record_transaction ty amt st with
      | .ok (_, s') => s'
      | .error _ => s
  | .updateTransactionStatus id st =>
      match s.update_transaction_status id st with
      | .ok s' => s'
      | .error _ => s

/-! ## Sync deposit processing (commands/sync.rs) -/

/-- The gap-filling loop of `process_deposit`: insert `n` copies of the
empty leaf `hash2(0, 0)`. -/
def fillEmpty (hash2 : FieldElement → FieldElement → FieldElement) :
    StateManager → ℕ → Except CoreError StateManager
  | s, 0 => .ok s
  | s, n + 1 =>
      match s.insert_leaf hash2 (hash2 0 0) with
      | .error e => .error e
      | .ok (_, s') => fillEmpty hash2 s' n

/-- `process_deposit` from commands/sync.rs, for a deposit event carrying
`commitment` and (u64-converted) `leaf_index`: insert at the expected
index, fill a gap with empty leaves first, or skip an already-processed
index. -/
def process_deposit (hash2 : FieldElement → FieldElement → FieldElement)
    (s : StateManager) (commitment : Bytes32) (leaf_index : ℕ) :
    Except CoreError StateManager :=
  let expected := s.tree.leaf_count
  if leaf_index = expected then
    match s.insert_leaf hash2 (bytes_to_field commitment) with
    | .error e => .error e
    | .ok (_, s') => .ok s'
  else if leaf_index > expected then
    match fillEmpty hash2 s (leaf_index - expected) with
    | .error e => .error e
    | .ok s1 =>
        match s1.insert_leaf hash2 (bytes_to_field commitment) with
        | .error e => .error e
        | .ok (_, s') => .ok s'
  else .ok s

/-! ## Recipient address packing (commands/withdraw.rs) -/

/-- The first 12 bytes of a 20-byte address, as a big-endian byte list
(`recipient_address.0.0[..12]`). -/
def addrBytes12 (addr : Bytes20) : List ℕ :=
  List.ofFn fun i : Fin 12 => ((addr ⟨i.val, by omega⟩ : ℕ))

/-- The packing of the 20-byte recipient address into a field element from
the withdraw command: build a 16-byte big-endian buffer whose bytes `4..16`
are the first 12 address bytes, read it as a `u128`
(`u128::from_be_bytes`), and lift it into the field. -/
def recipient_field (addr : Bytes20) : FieldElement :=
  ((beBytesToNat ([0, 0, 0, 0] ++ addrBytes12 addr)) : FieldElement)

/-! ## Canonical subtree hashes and the tree invariant -/

/-- The canonical hash of the height-`k` subtree rooted at index `i`, over a
total leaf assignment `L`. -/
def subHash (hash2 : FieldElement → FieldElement → FieldElement)
    (L : ℕ → FieldElement) : ℕ → ℕ → FieldElement
  | 0, i => L i
  | k + 1, i => hash2 (subHash hash2 L k (2 * i)) (subHash hash2 L k (2 * i + 1))

/-- The effective leaf assignment of a tree: the stored leaf, defaulting to
the empty-leaf hash. -/
def leafF (hash2 : FieldElement → FieldElement → FieldElement) (t : MerkleTree) :
    ℕ → FieldElement :=
  fun i => getNode hash2 t.nodes 0 i

theorem subHash_congr {hash2 : FieldElement → FieldElement → FieldElement}
    {L L' : ℕ → FieldElement} :
    ∀ k i, (∀ j, j / 2 ^ k = i → L j = L' j) →
      subHash hash2 L k i = subHash hash2 L' k i := by
  intro k
  induction k with
  | zero =>
      intro i h
      simpa using h i (by simp)
  | succ k ih =>
      intro i h
      have hL : ∀ b j, j / 2 ^ k = 2 * i + b → b ≤ 1 → L j = L' j := by
        intro b j hj _
        apply h
        have h2 : j / 2 ^ (k + 1) = j / 2 ^ k / 2 := by
          rw [Nat.div_div_eq_div_mul, pow_succ]
        rw [h2, hj]
        omega
      show hash2 _ _ = hash2 _ _
      rw [ih (2 * i) (fun j hj => hL 0 j (by omega) (by omega)),
        ih (2 * i + 1) (fun j hj => hL 1 j (by omega) (by omega))]

theorem subHash_empty {hash2 : FieldElement → FieldElement → FieldElement}
    {L : ℕ → FieldElement} (hL : ∀ j, L j = emptyHash hash2 0) :
    ∀ k i, subHash hash2 L k i = emptyHash hash2 k := by
  intro k
  induction k with
  | zero => intro i; exact hL i
  | succ k ih =>
      intro i
      show hash2 _ _ = _
      rw [ih, ih]
      rfl

theorem parentHash_subHash {hash2 : FieldElement → FieldElement → FieldElement}
    {L : ℕ → FieldElement} {level ci : ℕ} {ch sh : FieldElement}
    (hch : ch = subHash hash2 L level ci)
    (hsh : sh = subHash hash2 L level (sibIdx ci)) :
    parentHash hash2 ci ch sh = subHash hash2 L (level + 1) (ci / 2) := by
  have hsub : subHash hash2 L (level + 1) (ci / 2)
      = hash2 (subHash hash2 L level (2 * (ci / 2)))
          (subHash hash2 L level (2 * (ci / 2) + 1)) := rfl
  rcases Nat.mod_two_eq_zero_or_one ci with h | h
  · have e1 : 2 * (ci / 2) = ci := by omega
    have e2 : sibIdx ci = ci + 1 := by simp [sibIdx, h]
    rw [hsub, e1, parentHash, if_pos h, hch, hsh, e2]
  · have e1 : 2 * (ci / 2) + 1 = ci := by omega
    have e2 : sibIdx ci = 2 * (ci / 2) := by simp [sibIdx, h]; omega
    rw [hsub, e1, parentHash, if_neg (by omega), hch, hsh, e2]

/-- The positions `updatePath` launched at `(level, ci)` with `remaining`
steps is still going to overwrite: the strict ancestors of `ci` within the
next `remaining` levels. -/
def onPath (level remaining ci k i : ℕ) : Prop :=
  ∃ j, 1 ≤ j ∧ j ≤ remaining ∧ k = level + j ∧ i = ci / 2 ^ j

theorem updatePath_spec {hash2 : FieldElement → FieldElement → FieldElement}
    {L : ℕ → FieldElement} :
    ∀ remaining level ci ch (nodes : ℕ → ℕ → Option FieldElement),
      (∀ k i, k ≤ level + remaining → ¬ onPath level remaining ci k i →
          getNode hash2 nodes k i = subHash hash2 L k i) →
      ch = subHash hash2 L level ci →
      (∀ k i, k ≤ level + remaining →
          getNode hash2 (updatePath hash2 nodes level remaining ci ch).1 k i
            = subHash hash2 L k i)
      ∧ (updatePath hash2 nodes level remaining ci ch).2
          = subHash hash2 L (level + remaining) (ci / 2 ^ remaining) := by
  intro remaining
  induction remaining with
  | zero =>
      intro level ci ch nodes hex hch
      refine ⟨fun k i hk => hex k i (by omega) ?_, by simpa using hch⟩
      rintro ⟨j, hj1, hj0, -, -⟩
      omega
  | succ r ih =>
      intro level ci ch nodes hex hch
      have hsh : getNode hash2 nodes level (sibIdx ci) = subHash hash2 L level (sibIdx ci) := by
        apply hex level (sibIdx ci) (by omega)
        rintro ⟨j, hj1, -, hk, -⟩
        omega
      have hph : parentHash hash2 ci ch (getNode hash2 nodes level (sibIdx ci))
          = subHash hash2 L (level + 1) (ci / 2) :=
        parentHash_subHash hch hsh
      have hstep : updatePath hash2 nodes level (r + 1) ci ch
          = updatePath hash2
              (setNode nodes (level + 1) (ci / 2)
                (parentHash hash2 ci ch (getNode hash2 nodes level (sibIdx ci))))
              (level + 1) r (ci / 2)
              (parentHash hash2 ci ch (getNode hash2 nodes level (sibIdx ci))) := rfl
      have hex' : ∀ k i, k ≤ (level + 1) + r → ¬ onPath (level + 1) r (ci / 2) k i →
          getNode hash2
              (setNode nodes (level + 1) (ci / 2)
                (parentHash hash2 ci ch (getNode hash2 nodes level (sibIdx ci)))) k i
            = subHash hash2 L k i := by
        intro k i hk hop
        by_cases hki : k = level + 1 ∧ i = ci / 2
        · rw [getNode, setNode, if_pos hki, Option.getD_some, hph, hki.1, hki.2]
        · rw [getNode, setNode, if_neg hki]
          apply hex k i (by omega)
          rintro ⟨j, hj1, hjr, hkj, hij⟩
          rcases Nat.lt_or_ge j 2 with hj2 | hj2
          · have hj : j = 1 := by omega
            subst hj
            exact hki ⟨by omega, by simpa [pow_one] using hij⟩
          · apply hop
            refine ⟨j - 1, by omega, by omega, by omega, ?_⟩
            have hj' : j - 1 + 1 = j := by omega
            have hdd : ci / 2 / 2 ^ (j - 1) = ci / 2 ^ j := by
              rw [Nat.div_div_eq_div_mul, ← pow_succ', hj']
            rw [hdd, hij]
      have hmain := ih (level + 1) (ci / 2) _ _ hex' hph
      constructor
      · intro k i hk
        rw [hstep]
        exact hmain.1 k i (by omega)
      · rw [hstep, hmain.2]
        have h1 : level + 1 + r = level + (r + 1) := by omega
        have h2 : ci / 2 / 2 ^ r = ci / 2 ^ (r + 1) := by
          rw [Nat.div_div_eq_div_mul, ← pow_succ']
        rw [h1, h2]

theorem setNode_ne {nodes : ℕ → ℕ → Option FieldElement} {level idx k i : ℕ}
    {v : FieldElement} (h : ¬(k = level ∧ i = idx)) :
    setNode nodes level idx v k i = nodes k i := by
  simp only [setNode]
  rw [if_neg h]

theorem getNode_setNode_ne {hash2 : FieldElement → FieldElement → FieldElement}
    {nodes : ℕ → ℕ → Option FieldElement} {level idx k i : ℕ}
    {v : FieldElement} (h : ¬(k = level ∧ i = idx)) :
    getNode hash2 (setNode nodes level idx v) k i = getNode hash2 nodes k i := by
  rw [getNode, setNode_ne h, getNode]

theorem updatePath_preserve_low {hash2 : FieldElement → FieldElement → FieldElement} :
    ∀ remaining level ci ch (nodes : ℕ → ℕ → Option FieldElement) k i, k ≤ level →
      (updatePath hash2 nodes level remaining ci ch).1 k i = nodes k i := by
  intro remaining
  induction remaining with
  | zero => intro level ci ch nodes k i _; rfl
  | succ r ih =>
      intro level ci ch nodes k i hk
      rw [show updatePath hash2 nodes level (r + 1) ci ch
            = updatePath hash2
                (setNode nodes (level + 1) (ci / 2)
                  (parentHash hash2 ci ch (getNode hash2 nodes level (sibIdx ci))))
                (level + 1) r (ci / 2)
                (parentHash hash2 ci ch (getNode hash2 nodes level (sibIdx ci))) from rfl,
        ih (level + 1) (ci / 2) _ _ k i (by omega), setNode_ne (by omega)]

theorem update_leaf_nodes_zero {hash2 : FieldElement → FieldElement → FieldElement}
    (t : MerkleTree) (idx : ℕ) (l : FieldElement) (j : ℕ) :
    (t.update_leaf hash2 idx l).nodes 0 j = if j = idx then some l else t.nodes 0 j := by
  show (updatePath hash2 (setNode t.nodes 0 idx l) 0 TREE_DEPTH idx l).1 0 j = _
  rw [updatePath_preserve_low TREE_DEPTH 0 idx l _ 0 j (le_refl 0)]
  by_cases hj : j = idx
  · rw [setNode, if_pos ⟨rfl, hj⟩, if_pos hj]
  · rw [setNode_ne (by tauto), if_neg hj]

theorem update_leaf_leaf_count {hash2 : FieldElement → FieldElement → FieldElement}
    (t : MerkleTree) (idx : ℕ) (l : FieldElement) :
    (t.update_leaf hash2 idx l).leaf_count = t.leaf_count := rfl

/-- The data invariant tying a tree's sparse nodes and root to the
canonical hashes of its effective leaf assignment. -/
def TreeInv (hash2 : FieldElement → FieldElement → FieldElement) (t : MerkleTree) : Prop :=
  (∀ k, k ≤ TREE_DEPTH → ∀ i, getNode hash2 t.nodes k i = subHash hash2 (leafF hash2 t) k i)
  ∧ t.root = subHash hash2 (leafF hash2 t) TREE_DEPTH 0

theorem leafF_new (hash2 : FieldElement → FieldElement → FieldElement) (j : ℕ) :
    leafF hash2 (MerkleTree.new hash2) j = emptyHash hash2 0 := rfl

theorem treeInv_new (hash2 : FieldElement → FieldElement → FieldElement) :
    TreeInv hash2 (MerkleTree.new hash2) := by
  constructor
  · intro k _ i
    rw [subHash_empty (leafF_new hash2) k i]
    rfl
  · rw [subHash_empty (leafF_new hash2) TREE_DEPTH 0]
    rfl

theorem update_leaf_inv {hash2 : FieldElement → FieldElement → FieldElement}
    {t : MerkleTree} {idx : ℕ} {l : FieldElement}
    (ht : TreeInv hash2 t) (hidx : idx < MAX_LEAVES) :
    TreeInv hash2 (t.update_leaf hash2 idx l)
      ∧ leafF hash2 (t.update_leaf hash2 idx l)
          = fun i => if i = idx then l else leafF hash2 t i := by
  set L' : ℕ → FieldElement := fun i => if i = idx then l else leafF hash2 t i with hL'
  have hex : ∀ k i, k ≤ 0 + TREE_DEPTH → ¬ onPath 0 TREE_DEPTH idx k i →
      getNode hash2 (setNode t.nodes 0 idx l) k i = subHash hash2 L' k i := by
    intro k i hk hop
    match k with
    | 0 =>
        show getNode hash2 (setNode t.nodes 0 idx l) 0 i = L' i
        by_cases hi : i = idx
        · rw [getNode, setNode, if_pos ⟨rfl, hi⟩, Option.getD_some]
          simp [hL', hi]
        · rw [getNode_setNode_ne (by tauto)]
          simp only [hL', if_neg hi]
          rfl
    | k + 1 =>
        rw [getNode_setNode_ne (by omega)]
        rw [ht.1 (k + 1) (by omega) i]
        apply subHash_congr
        intro j hj
        have hjne : j ≠ idx := by
          intro hje
          subst hje
          exact hop ⟨k + 1, by omega, by omega, by omega, hj.symm⟩
        simp [hL', hjne]
  have hch : l = subHash hash2 L' 0 idx := by
    show l = L' idx
    simp [hL']
  have hmain := updatePath_spec TREE_DEPTH 0 idx l (setNode t.nodes 0 idx l) hex hch
  have hleaf : leafF hash2 (t.update_leaf hash2 idx l) = L' := by
    funext i
    exact hmain.1 0 i (by omega)
  refine ⟨⟨?_, ?_⟩, hleaf⟩
  · intro k hk i
    rw [hleaf]
    exact hmain.1 k i (by omega)
  · rw [hleaf]
    show (updatePath hash2 (setNode t.nodes 0 idx l) 0 TREE_DEPTH idx l).2
      = subHash hash2 L' TREE_DEPTH 0
    rw [hmain.2, Nat.div_eq_of_lt (show idx < 2 ^ TREE_DEPTH from hidx), Nat.zero_add]

theorem proofLoop_length {hash2 : FieldElement → FieldElement → FieldElement}
    {nodes : ℕ → ℕ → Option FieldElement} :
    ∀ remaining level ci, (proofLoop hash2 nodes level remaining ci).length = remaining := by
  intro remaining
  induction remaining with
  | zero => intro level ci; rfl
  | succ r ih =>
      intro level ci
      show (_ :: proofLoop hash2 nodes (level + 1) r (ci / 2)).length = r + 1
      rw [List.length_cons, ih]

theorem verifyLoop_subHash {hash2 : FieldElement → FieldElement → FieldElement}
    {L : ℕ → FieldElement} {nodes : ℕ → ℕ → Option FieldElement} :
    ∀ remaining level ci ch,
      (∀ k, k ≤ level + remaining → ∀ i, getNode hash2 nodes k i = subHash hash2 L k i) →
      ch = subHash hash2 L level ci →
      verifyLoop hash2 ch ci (proofLoop hash2 nodes level remaining ci)
        = subHash hash2 L (level + remaining) (ci / 2 ^ remaining) := by
  intro remaining
  induction remaining with
  | zero =>
      intro level ci ch _ hch
      simpa [proofLoop, verifyLoop] using hch
  | succ r ih =>
      intro level ci ch hg hch
      have hsib : getNode hash2 nodes level (sibIdx ci) = subHash hash2 L level (sibIdx ci) :=
        hg level (by omega) (sibIdx ci)
      show verifyLoop hash2 (parentHash hash2 ci ch (getNode hash2 nodes level (sibIdx ci)))
        (ci / 2) (proofLoop hash2 nodes (level + 1) r (ci / 2)) = _
      rw [ih (level + 1) (ci / 2) _ (fun k hk i => hg k (by omega) i)
        (parentHash_subHash hch hsib)]
      have h1 : level + 1 + r = level + (r + 1) := by omega
      have h2 : ci / 2 / 2 ^ r = ci / 2 ^ (r + 1) := by
        rw [Nat.div_div_eq_div_mul, ← pow_succ']
      rw [h1, h2]

theorem verify_proof_root {hash2 : FieldElement → FieldElement → FieldElement}
    {t : MerkleTree} (ht : TreeInv hash2 t) {idx : ℕ} (hidx : idx < MAX_LEAVES) :
    t.verify_proof hash2 (leafF hash2 t idx) idx (t.get_proof hash2 idx) t.root = true := by
  rw [MerkleTree.verify_proof, MerkleTree.get_proof,
    if_neg (by rw [proofLoop_length]; simp), decide_eq_true_eq]
  rw [verifyLoop_subHash TREE_DEPTH 0 idx (leafF hash2 t idx)
    (fun k hk i => ht.1 k (by omega) i) rfl]
  rw [Nat.div_eq_of_lt (show idx < 2 ^ TREE_DEPTH from hidx), Nat.zero_add, ht.2]

/-- Representation predicate: the tree is exactly the result of inserting
the leaves `pre` in order into a fresh tree (invariant, leaf count, stored
leaves, and absence of leaves past the end). -/
def ReprB (hash2 : FieldElement → FieldElement → FieldElement)
    (pre : List FieldElement) (t : MerkleTree) : Prop :=
  TreeInv hash2 t
    ∧ t.leaf_count = pre.length
    ∧ (∀ i (h : i < pre.length), t.nodes 0 i = some (pre.get ⟨i, h⟩))
    ∧ (∀ i, pre.length ≤ i → t.nodes 0 i = none)

theorem insert_step {hash2 : FieldElement → FieldElement → FieldElement}
    {pre : List FieldElement} {t : MerkleTree}
    (hr : ReprB hash2 pre t) (hlen : pre.length < MAX_LEAVES) (x : FieldElement) :
    t.insert hash2 x
        = .ok { t.update_leaf hash2 t.leaf_count x with leaf_count := t.leaf_count + 1 }
      ∧ ReprB hash2 (pre ++ [x])
          { t.update_leaf hash2 t.leaf_count x with leaf_count := t.leaf_count + 1 } := by
  have hcount : t.leaf_count = pre.length := hr.2.1
  have hok : t.insert hash2 x
      = .ok { t.update_leaf hash2 t.leaf_count x with leaf_count := t.leaf_count + 1 } := by
    rw [MerkleTree.insert, if_neg (by omega)]
  refine ⟨hok, ?_, by simp [hcount], ?_, ?_⟩
  · exact (update_leaf_inv hr.1 (by omega)).1
  · intro i h
    show (t.update_leaf hash2 t.leaf_count x).nodes 0 i = _
    rw [update_leaf_nodes_zero]
    have hlen1 : (pre ++ [x]).length = pre.length + 1 := by simp
    rcases Nat.lt_or_ge i pre.length with hi | hi
    · rw [if_neg (by omega), hr.2.2.1 i hi]
      congr 1
      simp [List.get_eq_getElem, List.getElem_append_left, hi]
    · have hie : i = pre.length := by omega
      subst hie
      rw [if_pos hcount.symm]
      congr 1
      simp [List.get_eq_getElem]
  · intro i hi
    show (t.update_leaf hash2 t.leaf_count x).nodes 0 i = none
    have hlen1 : (pre ++ [x]).length = pre.length + 1 := by simp
    rw [update_leaf_nodes_zero, if_neg (by omega)]
    exact hr.2.2.2 i (by omega)

theorem insertAll_repr {hash2 : FieldElement → FieldElement → FieldElement} :
    ∀ (xs pre : List FieldElement) (t : MerkleTree), ReprB hash2 pre t →
      pre.length + xs.length ≤ MAX_LEAVES →
      ∃ t', insertAll hash2 t xs = .ok t' ∧ ReprB hash2 (pre ++ xs) t' := by
  intro xs
  induction xs with
  | nil =>
      intro pre t hr _
      exact ⟨t, rfl, by simpa using hr⟩
  | cons x xs ih =>
      intro pre t hr hlen
      obtain ⟨hins, hr1⟩ := insert_step hr (by simp at hlen; omega) x
      obtain ⟨t', hall, hr'⟩ := ih (pre ++ [x]) _ hr1 (by simp at hlen ⊢; omega)
      refine ⟨t', ?_, by simpa using hr'⟩
      rw [insertAll, hins]
      exact hall

theorem buildFrom_repr (hash2 : FieldElement → FieldElement → FieldElement)
    {ls : List FieldElement} (hlen : ls.length ≤ MAX_LEAVES) :
    ReprB hash2 ls (buildFrom hash2 ls) := by
  have h0 : ReprB hash2 [] (MerkleTree.new hash2) :=
    ⟨treeInv_new hash2, rfl, by simp, fun _ _ => rfl⟩
  obtain ⟨t', hall, hr⟩ := insertAll_repr ls [] _ h0 (by simpa using hlen)
  rw [buildFrom, hall]
  simpa using hr

/-! ## Claim theorems -/

/-- Concrete stand-in hash functions used by witnesses and counterexamples
(the confirmation theorems hold for every hash function, so they hold in
particular for Poseidon; witnesses instantiate an evaluable one). -/
def hashW : FieldElement → FieldElement → FieldElement := fun a b => 3 * a + b + 1

/-- Arity-1 stand-in hash for witnesses. -/
def hash1W : FieldElement → FieldElement := fun a => a + 11

/-- Arity-3 stand-in hash for witnesses. -/
def hash3W : FieldElement → FieldElement → FieldElement → FieldElement :=
  fun a b c => a + 2 * b + 3 * c + 5

/-- C1: Merkle proof round-trip.  For every sequence of inserted leaves
(that fits in the depth-20 tree) and every index `i` below the number of
leaves, `verify_proof(l_i, i, get_proof(i), root())` returns `true`; and
for every never-written index `leaf_count ≤ i < 2^20`, `get_proof(i)` is a
valid proof of the empty-leaf value `E[0] = H2(0,0)` against the current
root. -/
theorem merkle_roundtrip_c1
    (hash2 : FieldElement → FieldElement → FieldElement)
    (ls : List FieldElement) (hlen : ls.length ≤ MAX_LEAVES) :
    (∀ i (hi : i < ls.length),
        (buildFrom hash2 ls).verify_proof hash2 (ls.get ⟨i, hi⟩) i
          ((buildFrom hash2 ls).get_proof hash2 i) (buildFrom hash2 ls).root = true)
    ∧ (∀ i, (buildFrom hash2 ls).leaf_count ≤ i → i < MAX_LEAVES →
        (buildFrom hash2 ls).verify_proof hash2 (hash2 0 0) i
          ((buildFrom hash2 ls).get_proof hash2 i) (buildFrom hash2 ls).root = true) := by
  have hr := buildFrom_repr hash2 hlen
  constructor
  · intro i hi
    have hleaf : leafF hash2 (buildFrom hash2 ls) i = ls.get ⟨i, hi⟩ := by
      rw [leafF]
      show getNode hash2 (buildFrom hash2 ls).nodes 0 i = _
      rw [getNode, hr.2.2.1 i hi, Option.getD_some]
    rw [← hleaf]
    exact verify_proof_root hr.1 (by omega)
  · intro i hge hlt
    have hleaf : leafF hash2 (buildFrom hash2 ls) i = hash2 0 0 := by
      rw [leafF]
      show getNode hash2 (buildFrom hash2 ls).nodes 0 i = _
      rw [getNode, hr.2.2.2 i (by rw [← hr.2.1]; exact hge)]
      rfl
    rw [← hleaf]
    exact verify_proof_root hr.1 hlt

theorem merkle_roundtrip_c1_witness :
    (([5, 7] : List FieldElement).length ≤ MAX_LEAVES)
    ∧ (buildFrom hashW [5, 7]).verify_proof hashW (([5, 7] : List FieldElement).get ⟨0, by decide⟩)
        0 ((buildFrom hashW [5, 7]).get_proof hashW 0) (buildFrom hashW [5, 7]).root = true
    ∧ (buildFrom hashW [5, 7]).verify_proof hashW (hashW 0 0)
        3 ((buildFrom hashW [5, 7]).get_proof hashW 3) (buildFrom hashW [5, 7]).root = true :=
  ⟨by decide,
   (merkle_roundtrip_c1 hashW [5, 7] (by decide)).1 0 (by decide),
   (merkle_roundtrip_c1 hashW [5, 7] (by decide)).2 3 (by decide) (by decide)⟩

/-- The "overwrite every inserted position with `E[0]`" phase of the
scenario of C7, as a fold of `update_leaf` calls. -/
def foldUpdates (hash2 : FieldElement → FieldElement → FieldElement)
    (t : MerkleTree) (js : List ℕ) : MerkleTree :=
  js.foldl (fun t j => t.update_leaf hash2 j (hash2 0 0)) t

theorem foldUpdates_nodes_zero {hash2 : FieldElement → FieldElement → FieldElement} :
    ∀ (js : List ℕ) (t : MerkleTree) (i : ℕ),
      (foldUpdates hash2 t js).nodes 0 i
        = if i ∈ js then some (hash2 0 0) else t.nodes 0 i := by
  intro js
  induction js with
  | nil => intro t i; simp [foldUpdates]
  | cons j js ih =>
      intro t i
      show (foldUpdates hash2 (t.update_leaf hash2 j (hash2 0 0)) js).nodes 0 i = _
      rw [ih, update_leaf_nodes_zero]
      by_cases hmem : i ∈ js
      · rw [if_pos hmem, if_pos (by simp [hmem])]
      · rw [if_neg hmem]
        by_cases hij : i = j
        · rw [if_pos hij, if_pos (by simp [hij])]
        · rw [if_neg hij, if_neg (by simp [hmem, hij])]

theorem foldUpdates_inv {hash2 : FieldElement → FieldElement → FieldElement} :
    ∀ (js : List ℕ) (t : MerkleTree), (∀ j ∈ js, j < MAX_LEAVES) → TreeInv hash2 t →
      TreeInv hash2 (foldUpdates hash2 t js) := by
  intro js
  induction js with
  | nil => intro t _ ht; exact ht
  | cons j js ih =>
      intro t hjs ht
      exact ih _ (fun x hx => hjs x (by simp [hx]))
        (update_leaf_inv ht (hjs j (by simp))).1

/-- C7: empty-tree root independence of insertion history.  Insert any
sequence of leaves into a fresh tree, then overwrite (via `update_leaf`
with `E[0] = H2(0,0)`) a set of positions covering every inserted
position: the root equals the fresh tree's root `E[20]`. -/
theorem empty_root_independence_c7
    (hash2 : FieldElement → FieldElement → FieldElement)
    (ls : List FieldElement) (js : List ℕ)
    (hlen : ls.length ≤ MAX_LEAVES)
    (hcover : ∀ i, i < ls.length → i ∈ js)
    (hjs : ∀ j ∈ js, j < ls.length) :
    (foldUpdates hash2 (buildFrom hash2 ls) js).root = (MerkleTree.new hash2).root := by
  have hr := buildFrom_repr hash2 hlen
  have hinv : TreeInv hash2 (foldUpdates hash2 (buildFrom hash2 ls) js) :=
    foldUpdates_inv js _ (fun j hj => by have := hjs j hj; omega) hr.1
  have hleaf : ∀ i, leafF hash2 (foldUpdates hash2 (buildFrom hash2 ls) js) i
      = emptyHash hash2 0 := by
    intro i
    rw [leafF]
    show getNode hash2 (foldUpdates hash2 (buildFrom hash2 ls) js).nodes 0 i = _
    rw [getNode, foldUpdates_nodes_zero]
    by_cases hij : i ∈ js
    · rw [if_pos hij]
      rfl
    · rw [if_neg hij]
      have hge : ls.length ≤ i := by
        by_contra hcon
        exact hij (hcover i (by omega))
      rw [hr.2.2.2 i hge]
      rfl
  rw [hinv.2, subHash_empty hleaf]
  rfl

theorem empty_root_independence_c7_witness :
    (foldUpdates hashW (buildFrom hashW [4, 9]) [1, 0]).root = (MerkleTree.new hashW).root :=
  empty_root_independence_c7 hashW [4, 9] [1, 0] (by decide)
    (by
      intro i hi
      match i, hi with
      | 0, _ => simp
      | 1, _ => simp)
    (by
      intro j hj
      simp at hj
      rcases hj with h | h <;> subst h <;> decide)

/-- C10: `update_leaf` frame property.  For every tree, index `i < 2^20`
and leaf value `l`, updating leaves `leaf_count` unchanged, leaves the
stored leaf at every `j ≠ i` unchanged, and afterwards `get_leaf i`
returns `l`. -/
theorem update_leaf_frame_c10
    (hash2 : FieldElement → FieldElement → FieldElement)
    (t : MerkleTree) (i : ℕ) (l : FieldElement) (hi : i < MAX_LEAVES) :
    (t.update_leaf hash2 i l).leaf_count = t.leaf_count
    ∧ (∀ j, j ≠ i → (t.update_leaf hash2 i l).get_leaf j = t.get_leaf j)
    ∧ (t.update_leaf hash2 i l).get_leaf i = some l := by
  refine ⟨rfl, ?_, ?_⟩
  · intro j hj
    rw [MerkleTree.get_leaf, MerkleTree.get_leaf, update_leaf_nodes_zero, if_neg hj]
  · rw [MerkleTree.get_leaf, update_leaf_nodes_zero, if_pos rfl]

theorem update_leaf_frame_c10_witness :
    ((MerkleTree.new hashW).update_leaf hashW 5 9).leaf_count = (MerkleTree.new hashW).leaf_count
    ∧ ((MerkleTree.new hashW).update_leaf hashW 5 9).get_leaf 3 = (MerkleTree.new hashW).get_leaf 3
    ∧ ((MerkleTree.new hashW).update_leaf hashW 5 9).get_leaf 5 = some 9 :=
  ⟨(update_leaf_frame_c10 hashW (MerkleTree.new hashW) 5 9 (by decide)).1,
   (update_leaf_frame_c10 hashW (MerkleTree.new hashW) 5 9 (by decide)).2.1 3 (by decide),
   (update_leaf_frame_c10 hashW (MerkleTree.new hashW) 5 9 (by decide)).2.2⟩

/-- Concrete account at the `u64` nonce boundary. -/
def accMaxNonce : PrivateAccount :=
  { pubkey := fun _ => 0, balance := 0, nonce := 2 ^ 64 - 1, index := 0 }

/-- Concrete account at the `u128` balance boundary. -/
def accMaxBalance : PrivateAccount :=
  { pubkey := fun _ => 0, balance := 2 ^ 128 - 1, nonce := 0, index := 0 }

/-- Concrete small account for witnesses. -/
def accW : PrivateAccount :=
  { pubkey := fun _ => 0, balance := 10, nonce := 2, index := 1 }

/-- C3 counterexample: at `nonce = u64::MAX` (and `balance ≥ amount`),
`debit` returns `true` but the stored nonce is not the old nonce plus one —
the unchecked `u64` increment wraps (release semantics; with overflow
checks the call panics instead, and either way no account with
`nonce = old + 1` results). -/
theorem debit_counterexample_c3 :
    (accMaxNonce.debit 0).1 = true
      ∧ (accMaxNonce.debit 0).2.nonce ≠ accMaxNonce.nonce + 1 := by
  decide

/-- C3 (amended): for every account whose nonce is below `u64::MAX`,
`debit(a)` returns `true`, decreases the balance by exactly `a` and
increments the nonce by exactly 1 when `balance ≥ a`; otherwise it returns
`false` and leaves the account (all fields) unchanged. -/
theorem debit_semantics_c3 (a : PrivateAccount) (amount : ℕ) :
    (amount ≤ a.balance → a.nonce < 2 ^ 64 - 1 →
      (a.debit amount).1 = true
        ∧ (a.debit amount).2.balance = a.balance - amount
        ∧ (a.debit amount).2.nonce = a.nonce + 1
        ∧ (a.debit amount).2.pubkey = a.pubkey
        ∧ (a.debit amount).2.index = a.index)
    ∧ (a.balance < amount →
      (a.debit amount).1 = false ∧ (a.debit amount).2 = a) := by
  constructor
  · intro h1 h2
    rw [PrivateAccount.debit, if_pos (by omega)]
    refine ⟨rfl, rfl, ?_, rfl, rfl⟩
    show (a.nonce + 1) % 2 ^ 64 = a.nonce + 1
    exact Nat.mod_eq_of_lt (by omega)
  · intro h
    rw [PrivateAccount.debit, if_neg (by omega)]
    exact ⟨rfl, rfl⟩

theorem debit_semantics_c3_witness :
    ((accW.debit 3).1 = true ∧ (accW.debit 3).2.balance = accW.balance - 3
        ∧ (accW.debit 3).2.nonce = accW.nonce + 1
        ∧ (accW.debit 3).2.pubkey = accW.pubkey ∧ (accW.debit 3).2.index = accW.index)
    ∧ ((accW.debit 11).1 = false ∧ (accW.debit 11).2 = accW) :=
  ⟨(debit_semantics_c3 accW 3).1 (by decide) (by decide),
   (debit_semantics_c3 accW 11).2 (by decide)⟩

/-- C6 counterexample: with `balance = u128::MAX` and `a = 1`, `credit(a)`
saturates, so the following `debit(a)` leaves the balance one below its
original value — the credit-then-debit identity fails. -/
theorem credit_debit_counterexample_c6 :
    ((accMaxBalance.credit 1).debit 1).2.balance ≠ accMaxBalance.balance := by
  decide

/-- C6 (amended): whenever `balance + a ≤ u128::MAX` (so the saturating
credit is exact) and `nonce < u64::MAX`, `credit(a); debit(a)` succeeds,
restores the balance to its original value and advances the nonce by
exactly 1. -/
theorem credit_debit_identity_c6 (a : PrivateAccount) (amount : ℕ)
    (hb : a.balance + amount ≤ U128_MAX) (hn : a.nonce < 2 ^ 64 - 1) :
    ((a.credit amount).debit amount).1 = true
    ∧ ((a.credit amount).debit amount).2.balance = a.balance
    ∧ ((a.credit amount).debit amount).2.nonce = a.nonce + 1 := by
  have hmax : U128_MAX = 2 ^ 128 - 1 := rfl
  have hcredit : (a.credit amount).balance = a.balance + amount := by
    show u128SaturatingAdd a.balance amount = a.balance + amount
    rw [u128SaturatingAdd, u128CheckedAdd, if_pos (by omega)]
    rfl
  have hge : amount ≤ (a.credit amount).balance := by
    rw [hcredit]
    omega
  rw [PrivateAccount.debit, if_pos hge]
  refine ⟨rfl, ?_, ?_⟩
  · show (a.credit amount).balance - amount = a.balance
    rw [hcredit]
    omega
  · show ((a.credit amount).nonce + 1) % 2 ^ 64 = a.nonce + 1
    have hnc : (a.credit amount).nonce = a.nonce := rfl
    rw [hnc, Nat.mod_eq_of_lt (by omega)]

theorem credit_debit_identity_c6_witness :
    ((accW.credit 5).debit 5).1 = true
    ∧ ((accW.credit 5).debit 5).2.balance = accW.balance
    ∧ ((accW.credit 5).debit 5).2.nonce = accW.nonce + 1 :=
  credit_debit_identity_c6 accW 5 (by decide) (by decide)

/-- C9: `credit` saturates instead of overflowing: for in-range balance and
amount it sets the balance to `min(b + a, 2^128 - 1)` (total, no wrap, no
panic) and leaves nonce, index and pubkey unchanged. -/
theorem credit_saturates_c9 (a : PrivateAccount) (amount : ℕ)
    (hb : a.balance < 2 ^ 128) (ha : amount < 2 ^ 128) :
    (a.credit amount).balance = min (a.balance + amount) (2 ^ 128 - 1)
    ∧ (a.credit amount).nonce = a.nonce
    ∧ (a.credit amount).index = a.index
    ∧ (a.credit amount).pubkey = a.pubkey := by
  refine ⟨?_, rfl, rfl, rfl⟩
  show u128SaturatingAdd a.balance amount = _
  rw [u128SaturatingAdd, u128CheckedAdd]
  by_cases h : a.balance + amount < 2 ^ 128
  · rw [if_pos h]
    show a.balance + amount = _
    omega
  · rw [if_neg h]
    show U128_MAX = _
    have hmax : U128_MAX = 2 ^ 128 - 1 := rfl
    omega

theorem credit_saturates_c9_witness :
    (accMaxBalance.credit 5).balance = min (accMaxBalance.balance + 5) (2 ^ 128 - 1)
    ∧ (accMaxBalance.credit 5).nonce = accMaxBalance.nonce
    ∧ (accMaxBalance.credit 5).index = accMaxBalance.index
    ∧ (accMaxBalance.credit 5).pubkey = accMaxBalance.pubkey :=
  credit_saturates_c9 accMaxBalance 5 (by decide) (by decide)

theorem applySMOp_used (hash1 : FieldElement → FieldElement)
    (hash2 : FieldElement → FieldElement → FieldElement)
    (hash3 : FieldElement → FieldElement → FieldElement → FieldElement)
    (op : SMOp) (s : StateManager) :
    s.used_nullifiers ⊆ (applySMOp hash1 hash2 hash3 op s).used_nullifiers := by
  cases op with
  | markNullifierUsed n =>
      simp only [applySMOp, StateManager.mark_nullifier_used]
      by_cases hmem : n ∈ s.used_nullifiers
      · rw [if_pos hmem]
      · rw [if_neg hmem]
        exact Finset.subset_insert _ _
  | createAccount secret bal =>
      simp only [applySMOp, StateManager.create_account]
      split
      all_goals try exact Finset.Subset.refl _
      rename_i a s' heq
      split at heq
      · exact absurd heq (by simp)
      · simp only [Except.ok.injEq, Prod.mk.injEq] at heq
        rw [← heq.2]
        try exact Finset.Subset.refl _
  | updateAccount account =>
      simp only [applySMOp, StateManager.update_account]
      exact Finset.Subset.refl _
  | insertLeaf leaf =>
      simp only [applySMOp, StateManager.insert_leaf]
      split
      all_goals try exact Finset.Subset.refl _
      rename_i a s' heq
      split at heq
      · exact absurd heq (by simp)
      · simp only [Except.ok.injEq, Prod.mk.injEq] at heq
        rw [← heq.2]
        try exact Finset.Subset.refl _
  | setSyncCheckpoint b =>
      simp only [applySMOp, StateManager.set_sync_checkpoint]
      exact Finset.Subset.refl _
  | recordTransaction ty amt st =>
      simp only [applySMOp, StateManager.record_transaction]
      exact Finset.Subset.refl _
  | updateTransactionStatus id st =>
      simp only [applySMOp, StateManager.update_transaction_status]
      exact Finset.Subset.refl _

theorem foldSMOp_used (hash1 : FieldElement → FieldElement)
    (hash2 : FieldElement → FieldElement → FieldElement)
    (hash3 : FieldElement → FieldElement → FieldElement → FieldElement) :
    ∀ (ops : List SMOp) (s : StateManager),
      s.used_nullifiers
        ⊆ (ops.foldl (fun s op => applySMOp hash1 hash2 hash3 op s) s).used_nullifiers := by
  intro ops
  induction ops with
  | nil => intro s; exact Finset.Subset.refl _
  | cons op ops ih =>
      intro s
      exact Finset.Subset.trans (applySMOp_used hash1 hash2 hash3 op s)
        (ih (applySMOp hash1 hash2 hash3 op s))

/-- C2: the nullifier set is append-only with duplicate detection.
`mark_nullifier_used n` errors with `NullifierUsed` exactly when `n` is
already in the set; on that error the state (in-memory set and persistent
table included) is unchanged; on success the set gains `n` and the table
gets the appended row, after which `is_nullifier_used n` holds; and no
state-manager operation ever removes a nullifier from the set. -/
theorem nullifier_append_only_c2
    (hash1 : FieldElement → FieldElement)
    (hash2 : FieldElement → FieldElement → FieldElement)
    (hash3 : FieldElement → FieldElement → FieldElement → FieldElement) :
    (∀ (s : StateManager) (n : Bytes32),
        (∃ e, s.mark_nullifier_used n = .error e) ↔ n ∈ s.used_nullifiers)
    ∧ (∀ (s : StateManager) (n : Bytes32), n ∈ s.used_nullifiers →
        s.mark_nullifier_used n = .error (.NullifierUsed n)
          ∧ applySMOp hash1 hash2 hash3 (.markNullifierUsed n) s = s)
    ∧ (∀ (s : StateManager) (n : Bytes32), n ∉ s.used_nullifiers →
        s.mark_nullifier_used n
          = .ok { s with
                  used_nullifiers := insert n s.used_nullifiers,
                  dbNullifiers := s.dbNullifiers ++ [n] })
    ∧ (∀ (s : StateManager) (n : Bytes32),
        (applySMOp hash1 hash2 hash3 (.markNullifierUsed n) s).is_nullifier_used n = true)
    ∧ (∀ (ops : List SMOp) (s : StateManager),
        s.used_nullifiers
          ⊆ (ops.foldl (fun s op => applySMOp hash1 hash2 hash3 op s) s).used_nullifiers) := by
  refine ⟨?_, ?_, ?_, ?_, foldSMOp_used hash1 hash2 hash3⟩
  · intro s n
    constructor
    · rintro ⟨e, he⟩
      by_contra hmem
      rw [StateManager.mark_nullifier_used, if_neg hmem] at he
      exact absurd he (by simp)
    · intro hmem
      exact ⟨.NullifierUsed n, by rw [StateManager.mark_nullifier_used, if_pos hmem]⟩
  · intro s n hmem
    have he : s.mark_nullifier_used n = .error (.NullifierUsed n) := by
      rw [StateManager.mark_nullifier_used, if_pos hmem]
    refine ⟨he, ?_⟩
    show (match s.mark_nullifier_used n with
          | .ok s' => s'
          | .error _ => s) = s
    rw [he]
  · intro s n hmem
    rw [StateManager.mark_nullifier_used, if_neg hmem]
  · intro s n
    by_cases hmem : n ∈ s.used_nullifiers
    · have he : s.mark_nullifier_used n = .error (.NullifierUsed n) := by
        rw [StateManager.mark_nullifier_used, if_pos hmem]
      show (match s.mark_nullifier_used n with
            | .ok s' => s'
            | .error _ => s).is_nullifier_used n = true
      rw [he]
      simp [StateManager.is_nullifier_used, hmem]
    · have he : s.mark_nullifier_used n
          = .ok { s with
                  used_nullifiers := insert n s.used_nullifiers,
                  dbNullifiers := s.dbNullifiers ++ [n] } := by
        rw [StateManager.mark_nullifier_used, if_neg hmem]
      show (match s.mark_nullifier_used n with
            | .ok s' => s'
            | .error _ => s).is_nullifier_used n = true
      rw [he]
      simp [StateManager.is_nullifier_used]

/-- Concrete nullifier for the C2 witness. -/
def null0 : Bytes32 := fun _ => 7

/-- Concrete state already containing `null0`, for the C2 witness. -/
def sWithNull : StateManager :=
  { StateManager.in_memory hashW with
    used_nullifiers := {null0}
    dbNullifiers := [null0] }

theorem nullifier_append_only_c2_witness :
    (sWithNull.mark_nullifier_used null0 = .error (.NullifierUsed null0)
      ∧ applySMOp hash1W hashW hash3W (.markNullifierUsed null0) sWithNull = sWithNull)
    ∧ (applySMOp hash1W hashW hash3W (.markNullifierUsed null0)
        (StateManager.in_memory hashW)).is_nullifier_used null0 = true :=
  ⟨(nullifier_append_only_c2 hash1W hashW hash3W).2.1 sWithNull null0 (by decide),
   (nullifier_append_only_c2 hash1W hashW hash3W).2.2.2.1 (StateManager.in_memory hashW) null0⟩

/-- Concrete account for the C4 counterexample: no stored account matches
its index in a fresh state manager. -/
def acc0 : PrivateAccount :=
  { pubkey := fun _ => 0, balance := 5, nonce := 0, index := 0 }

set_option maxRecDepth 40000 in
/-- C4 counterexample: on a fresh state manager (whose `accounts` table is
empty, so no stored account matches), `update_account` does **not** return
an "Account not found" error — it succeeds — and it is not a no-op either:
the tree root changes. -/
theorem update_account_counterexample_c4 :
    (StateManager.in_memory hashW).dbAccounts = []
    ∧ ((StateManager.in_memory hashW).update_account hashW hash3W acc0).isOk = true
    ∧ (((StateManager.in_memory hashW).update_account hashW hash3W acc0).toOption.getD
          (StateManager.in_memory hashW)).tree.root
        ≠ (StateManager.in_memory hashW).tree.root := by
  refine ⟨rfl, rfl, ?_⟩
  decide

/-- C4 (amended): `update_account` never reports a missing account.  It
always returns `Ok`; the SQL `UPDATE` rewrites exactly the rows whose
`leaf_index` equals `account.index` (a no-op on the table when none
matches), and the tree leaf at `account.index` is unconditionally set to
`H3(pubkey, balance, nonce)` — even when no stored account matches. -/
theorem update_account_total_c4
    (hash2 : FieldElement → FieldElement → FieldElement)
    (hash3 : FieldElement → FieldElement → FieldElement → FieldElement)
    (s : StateManager) (account : PrivateAccount) :
    s.update_account hash2 hash3 account
      = .ok { s with
              dbAccounts := s.dbAccounts.map fun row =>
                if row.leaf_index = account.index then
                  { row with balance := account.balance, nonce := account.nonce }
                else row
              tree := s.tree.update_leaf hash2 account.index (account.compute_leaf hash3) }
    ∧ ((s.update_account hash2 hash3 account).toOption.getD s).tree.get_leaf account.index
        = some (account.compute_leaf hash3)
    ∧ ((s.update_account hash2 hash3 account).toOption.getD s).used_nullifiers
        = s.used_nullifiers
    ∧ ((s.update_account hash2 hash3 account).toOption.getD s).tree.leaf_count
        = s.tree.leaf_count := by
  refine ⟨rfl, ?_, rfl, rfl⟩
  show (s.tree.update_leaf hash2 account.index (account.compute_leaf hash3)).get_leaf
      account.index = _
  rw [MerkleTree.get_leaf, update_leaf_nodes_zero, if_pos rfl]

theorem insert_ok {hash2 : FieldElement → FieldElement → FieldElement}
    {t : MerkleTree} (h : t.leaf_count < MAX_LEAVES) (leaf : FieldElement) :
    t.insert hash2 leaf
      = .ok { t.update_leaf hash2 t.leaf_count leaf with leaf_count := t.leaf_count + 1 } := by
  rw [MerkleTree.insert, if_neg (by omega)]

theorem fillEmpty_spec (hash2 : FieldElement → FieldElement → FieldElement) :
    ∀ (n : ℕ) (s : StateManager), s.tree.leaf_count + n ≤ MAX_LEAVES →
      ∃ s2, fillEmpty hash2 s n = .ok s2
        ∧ s2.tree.leaf_count = s.tree.leaf_count + n
        ∧ (∀ j, s.tree.leaf_count ≤ j → j < s.tree.leaf_count + n →
            s2.tree.get_leaf j = some (hash2 0 0))
        ∧ (∀ j, j < s.tree.leaf_count → s2.tree.get_leaf j = s.tree.get_leaf j)
        ∧ (∀ j, s.tree.leaf_count + n ≤ j → s2.tree.get_leaf j = s.tree.get_leaf j) := by
  intro n
  induction n with
  | zero =>
      intro s _
      refine ⟨s, rfl, by omega, ?_, fun j _ => rfl, fun j _ => rfl⟩
      intro j h1 h2
      omega
  | succ n ih =>
      intro s hle
      have hc : s.tree.leaf_count < MAX_LEAVES := by omega
      have hins : s.insert_leaf hash2 (hash2 0 0)
          = .ok (s.tree.leaf_count,
              { s with tree := { s.tree.update_leaf hash2 s.tree.leaf_count (hash2 0 0) with
                                 leaf_count := s.tree.leaf_count + 1 } }) := by
        simp only [StateManager.insert_leaf, insert_ok hc]
      set s1 : StateManager :=
        { s with tree := { s.tree.update_leaf hash2 s.tree.leaf_count (hash2 0 0) with
                           leaf_count := s.tree.leaf_count + 1 } } with hs1
      have hs1count : s1.tree.leaf_count = s.tree.leaf_count + 1 := rfl
      have hs1leaf : ∀ j, s1.tree.get_leaf j
          = if j = s.tree.leaf_count then some (hash2 0 0) else s.tree.get_leaf j := by
        intro j
        rw [MerkleTree.get_leaf, MerkleTree.get_leaf]
        show (s.tree.update_leaf hash2 s.tree.leaf_count (hash2 0 0)).nodes 0 j = _
        rw [update_leaf_nodes_zero]
      obtain ⟨s2, hfill, hcount, hmid, hlow, hhigh⟩ := ih s1 (by rw [hs1count]; omega)
      refine ⟨s2, ?_, ?_, ?_, ?_, ?_⟩
      · simp only [fillEmpty, hins]
        exact hfill
      · rw [hcount, hs1count]
        omega
      · intro j hj1 hj2
        by_cases hje : j = s.tree.leaf_count
        · rw [hlow j (by omega), hs1leaf, if_pos hje]
        · rw [hmid j (by omega) (by omega)]
      · intro j hj
        rw [hlow j (by omega), hs1leaf, if_neg (by omega)]
      · intro j hj
        rw [hhigh j (by omega), hs1leaf, if_neg (by omega)]

/-- C5: sync deposit application with gap fill.  For a deposit event with
(u64) `leaf_index = k < 2^20` against a local state with
`leaf_count = c`: when `k < c` the event is skipped and the state is
returned unchanged; when `k ≥ c` the call succeeds, the final leaf count
is `k + 1`, positions `c..k-1` hold the empty leaf `E[0] = H2(0,0)`, the
commitment (as a field element) sits at position `k`, and positions below
`c` are untouched.  (The gap-fill case `k > c` and the exact-match case
`k = c` are both instances of the second conjunct.) -/
theorem process_deposit_c5
    (hash2 : FieldElement → FieldElement → FieldElement)
    (s : StateManager) (commitment : Bytes32) (k : ℕ) (hk : k < MAX_LEAVES) :
    (k < s.tree.leaf_count → process_deposit hash2 s commitment k = .ok s)
    ∧ (s.tree.leaf_count ≤ k →
        process_deposit hash2 s commitment k
            = .ok ((process_deposit hash2 s commitment k).toOption.getD s)
        ∧ ((process_deposit hash2 s commitment k).toOption.getD s).tree.leaf_count = k + 1
        ∧ (∀ j, s.tree.leaf_count ≤ j → j < k →
            ((process_deposit hash2 s commitment k).toOption.getD s).tree.get_leaf j
              = some (hash2 0 0))
        ∧ ((process_deposit hash2 s commitment k).toOption.getD s).tree.get_leaf k
            = some (bytes_to_field commitment)
        ∧ (∀ j, j < s.tree.leaf_count →
            ((process_deposit hash2 s commitment k).toOption.getD s).tree.get_leaf j
              = s.tree.get_leaf j)) := by
  constructor
  · intro hlt
    simp only [process_deposit]
    rw [if_neg (by omega), if_neg (by omega)]
  · intro hge
    obtain ⟨s1, hfill, hcount, hmid, hlow, hhigh⟩ :=
      fillEmpty_spec hash2 (k - s.tree.leaf_count) s (by omega)
    have hck : s1.tree.leaf_count = k := by omega
    have hc2 : s1.tree.leaf_count < MAX_LEAVES := by omega
    have hins2 : s1.insert_leaf hash2 (bytes_to_field commitment)
        = .ok (s1.tree.leaf_count,
            { s1 with tree :=
                { s1.tree.update_leaf hash2 s1.tree.leaf_count (bytes_to_field commitment) with
                  leaf_count := s1.tree.leaf_count + 1 } }) := by
      simp only [StateManager.insert_leaf, insert_ok hc2]
    set sFin : StateManager :=
      { s1 with tree :=
          { s1.tree.update_leaf hash2 s1.tree.leaf_count (bytes_to_field commitment) with
            leaf_count := s1.tree.leaf_count + 1 } } with hsFin
    have hsFinleaf : ∀ j, sFin.tree.get_leaf j
        = if j = s1.tree.leaf_count then some (bytes_to_field commitment)
          else s1.tree.get_leaf j := by
      intro j
      rw [MerkleTree.get_leaf, MerkleTree.get_leaf]
      show (s1.tree.update_leaf hash2 s1.tree.leaf_count (bytes_to_field commitment)).nodes 0 j
        = _
      rw [update_leaf_nodes_zero]
    have hrun : process_deposit hash2 s commitment k = .ok sFin := by
      rcases Nat.eq_or_lt_of_le hge with heq | hlt
      · -- k = leaf_count: the gap is empty, fillEmpty returned s itself
        have hfill0 : fillEmpty hash2 s (k - s.tree.leaf_count) = .ok s := by
          rw [show k - s.tree.leaf_count = 0 from by omega]
          rfl
        have hs1 : s1 = s := by
          rw [hfill0] at hfill
          exact (Except.ok.injEq _ _ ▸ hfill).symm
        simp only [process_deposit]
        rw [if_pos (by omega)]
        rw [hs1] at hins2
        simp only [hins2]
      · simp only [process_deposit]
        rw [if_neg (by omega), if_pos (by omega)]
        simp only [hfill, hins2]
    rw [hrun]
    refine ⟨rfl, ?_, ?_, ?_, ?_⟩
    · show sFin.tree.leaf_count = k + 1
      have : sFin.tree.leaf_count = s1.tree.leaf_count + 1 := rfl
      omega
    · intro j hj1 hj2
      show sFin.tree.get_leaf j = some (hash2 0 0)
      rw [hsFinleaf, if_neg (by omega)]
      exact hmid j (by omega) (by omega)
    · show sFin.tree.get_leaf k = some (bytes_to_field commitment)
      rw [hsFinleaf, if_pos (by omega)]
    · intro j hj
      show sFin.tree.get_leaf j = s.tree.get_leaf j
      rw [hsFinleaf, if_neg (by omega)]
      exact hlow j (by omega)

theorem beBytesToNat_foldl_acc :
    ∀ (bs : List ℕ) (acc : ℕ),
      bs.foldl (fun acc b => acc * 256 + b) acc
        = acc * 256 ^ bs.length + bs.foldl (fun acc b => acc * 256 + b) 0 := by
  intro bs
  induction bs with
  | nil => intro acc; simp
  | cons b bs ih =>
      intro acc
      show bs.foldl _ (acc * 256 + b) = _
      rw [ih (acc * 256 + b)]
      conv_rhs =>
        rw [show (b :: bs).foldl (fun acc b => acc * 256 + b) 0
              = bs.foldl (fun acc b => acc * 256 + b) (0 * 256 + b) from rfl,
          ih (0 * 256 + b)]
      rw [List.length_cons, pow_succ]
      ring

theorem beBytesToNat_cons (b : ℕ) (bs : List ℕ) :
    beBytesToNat (b :: bs) = b * 256 ^ bs.length + beBytesToNat bs := by
  show bs.foldl _ (0 * 256 + b) = _
  rw [beBytesToNat_foldl_acc bs (0 * 256 + b)]
  simp [beBytesToNat]

theorem beBytesToNat_lt :
    ∀ (bs : List ℕ), (∀ b ∈ bs, b < 256) → beBytesToNat bs < 256 ^ bs.length := by
  intro bs
  induction bs with
  | nil => intro _; simp [beBytesToNat]
  | cons b bs ih =>
      intro h
      have h1 : beBytesToNat bs < 256 ^ bs.length := ih (fun x hx => h x (by simp [hx]))
      have hb : b < 256 := h b (by simp)
      rw [beBytesToNat_cons, List.length_cons, pow_succ]
      calc b * 256 ^ bs.length + beBytesToNat bs
          < b * 256 ^ bs.length + 256 ^ bs.length := by omega
        _ = (b + 1) * 256 ^ bs.length := by ring
        _ ≤ 256 * 256 ^ bs.length := Nat.mul_le_mul_right _ (by omega)
        _ = 256 ^ bs.length * 256 := by ring

theorem beBytesToNat_digit :
    ∀ (bs : List ℕ), (∀ b ∈ bs, b < 256) → ∀ (t : ℕ) (ht : t < bs.length),
      beBytesToNat bs / 256 ^ (bs.length - 1 - t) % 256 = bs.get ⟨t, ht⟩ := by
  intro bs
  induction bs with
  | nil => intro _ t ht; simp at ht
  | cons b bs ih =>
      intro h t ht
      match t with
      | 0 =>
          have hlen : (b :: bs).length - 1 - 0 = bs.length := by simp
          have h1 : beBytesToNat bs < 256 ^ bs.length :=
            beBytesToNat_lt bs (fun x hx => h x (by simp [hx]))
          have hP : 0 < (256:ℕ) ^ bs.length := pow_pos (by norm_num) _
          rw [hlen, beBytesToNat_cons, mul_comm, Nat.mul_add_div hP,
            Nat.div_eq_of_lt h1, Nat.add_zero, Nat.mod_eq_of_lt (h b (by simp))]
          rfl
      | t + 1 =>
          have ht' : t < bs.length := by simpa using ht
          have hlen : (b :: bs).length - 1 - (t + 1) = bs.length - 1 - t := by
            simp only [List.length_cons]
            omega
          have hpow : (256:ℕ) ^ bs.length = 256 ^ (bs.length - 1 - t) * 256 ^ (t + 1) := by
            rw [← pow_add]
            congr 1
            omega
          have hP : 0 < (256:ℕ) ^ (bs.length - 1 - t) := pow_pos (by norm_num) _
          rw [hlen, beBytesToNat_cons, hpow,
            show b * (256 ^ (bs.length - 1 - t) * 256 ^ (t + 1)) + beBytesToNat bs
              = 256 ^ (bs.length - 1 - t) * (b * 256 ^ (t + 1)) + beBytesToNat bs from by ring,
            Nat.mul_add_div hP,
            show b * 256 ^ (t + 1) = b * 256 ^ t * 256 from by ring,
            Nat.add_comm, Nat.add_mul_mod_self_right]
          exact ih (fun x hx => h x (by simp [hx])) t ht'

theorem addrBytes12_length (addr : Bytes20) : (addrBytes12 addr).length = 12 := by
  simp [addrBytes12]

theorem addrBytes12_mem (addr : Bytes20) : ∀ b ∈ addrBytes12 addr, b < 256 := by
  intro b hb
  rw [addrBytes12, List.mem_ofFn] at hb
  obtain ⟨i, rfl⟩ := hb
  exact (addr _).isLt

theorem recipient_field_val (addr : Bytes20) :
    (recipient_field addr).val = beBytesToNat (addrBytes12 addr) := by
  have hzeros : beBytesToNat ([0, 0, 0, 0] ++ addrBytes12 addr)
      = beBytesToNat (addrBytes12 addr) := by
    simp [beBytesToNat]
  have hlt : beBytesToNat (addrBytes12 addr) < bn254r := by
    have h1 : beBytesToNat (addrBytes12 addr) < 256 ^ 12 := by
      have := beBytesToNat_lt (addrBytes12 addr) (addrBytes12_mem addr)
      rwa [addrBytes12_length] at this
    have h2 : (256:ℕ) ^ 12 < bn254r := by decide
    omega
  rw [recipient_field, hzeros, ZMod.val_cast_of_lt hlt]

/-- The concrete recipient address of scenario S7:
`0x1234567890abcdef1122334455667788aabbccdd`. -/
def addrS7 : Bytes20 := fun i =>
  (([0x12, 0x34, 0x56, 0x78, 0x90, 0xab, 0xcd, 0xef, 0x11, 0x22, 0x33, 0x44,
     0x55, 0x66, 0x77, 0x88, 0xaa, 0xbb, 0xcc, 0xdd] : List (Fin 256)).get ⟨i.val, i.isLt⟩)

set_option maxRecDepth 40000 in
/-- C8 counterexample: at the address of scenario S7 the big-endian 32-byte
encoding of the packed field element does **not** have the claimed split of
its 20-byte (address-sized) tail — claimed: the upper 12 bytes (positions
12..23) carry the first 12 address bytes and the lower 8 bytes (positions
24..31) are zero.  The code right-aligns instead: positions 24..31 hold
`0xef 0x11 0x22 0x33 0x44`-tail bytes of the address, not zeros. -/
theorem recipient_packing_counterexample_c8 :
    ¬ ((∀ j : Fin 32, 24 ≤ (j : ℕ) → field_to_bytes (recipient_field addrS7) j = 0)
       ∧ (∀ j : Fin 32, 12 ≤ (j : ℕ) → (j : ℕ) < 24 →
            field_to_bytes (recipient_field addrS7) j
              = addrS7 ⟨(j : ℕ) - 12, by have := j.isLt; omega⟩)) := by
  decide

/-- C8 (amended): the packing is a deterministic (pure) function of the
address with the value `int_be(addr[0..12])`: the first 12 address bytes
are right-aligned in the field element, so the big-endian 32-byte encoding
has its first 20 bytes zero and its last 12 bytes equal to the first 12
address bytes (rather than the claimed left-aligned upper-12/lower-8
split of the 20-byte tail). -/
theorem recipient_packing_c8 (addr : Bytes20) :
    (∀ j : Fin 32, (j : ℕ) < 20 → field_to_bytes (recipient_field addr) j = 0)
    ∧ (∀ j : Fin 32, 20 ≤ (j : ℕ) →
        field_to_bytes (recipient_field addr) j
          = addr ⟨(j : ℕ) - 20, by have := j.isLt; omega⟩) := by
  have hlt : beBytesToNat (addrBytes12 addr) < 256 ^ 12 := by
    have := beBytesToNat_lt (addrBytes12 addr) (addrBytes12_mem addr)
    rwa [addrBytes12_length] at this
  constructor
  · intro j hj
    apply Fin.ext
    show (recipient_field addr).val / 256 ^ (31 - (j : ℕ)) % 256 = 0
    rw [recipient_field_val,
      Nat.div_eq_of_lt (lt_of_lt_of_le hlt (Nat.pow_le_pow_right (by norm_num) (by omega))),
      Nat.zero_mod]
  · intro j hj
    apply Fin.ext
    show (recipient_field addr).val / 256 ^ (31 - (j : ℕ)) % 256 = _
    rw [recipient_field_val]
    have hj32 : (j : ℕ) < 32 := j.isLt
    have h31 : 31 - (j : ℕ) = (addrBytes12 addr).length - 1 - ((j : ℕ) - 20) := by
      rw [addrBytes12_length]
      omega
    rw [h31, beBytesToNat_digit _ (addrBytes12_mem addr) ((j : ℕ) - 20)
      (by rw [addrBytes12_length]; omega)]
    simp only [addrBytes12]
    rw [List.get_ofFn]
    rfl

theorem recipient_packing_c8_witness :
    field_to_bytes (recipient_field addrS7) ⟨5, by omega⟩ = 0
    ∧ field_to_bytes (recipient_field addrS7) ⟨31, by omega⟩ = addrS7 ⟨11, by omega⟩ :=
  ⟨(recipient_packing_c8 addrS7).1 ⟨5, by omega⟩ (by decide),
   (recipient_packing_c8 addrS7).2 ⟨31, by omega⟩ (by decide)⟩

/-- Concrete deposit commitment bytes for the C5 witness. -/
def comm0 : Bytes32 := fun _ => 1

theorem process_deposit_c5_witness :
    process_deposit hashW (StateManager.in_memory hashW) comm0 3
        = .ok ((process_deposit hashW (StateManager.in_memory hashW) comm0 3).toOption.getD
            (StateManager.in_memory hashW))
    ∧ ((process_deposit hashW (StateManager.in_memory hashW) comm0 3).toOption.getD
          (StateManager.in_memory hashW)).tree.leaf_count = 3 + 1
    ∧ ((process_deposit hashW (StateManager.in_memory hashW) comm0 3).toOption.getD
          (StateManager.in_memory hashW)).tree.get_leaf 1 = some (hashW 0 0)
    ∧ ((process_deposit hashW (StateManager.in_memory hashW) comm0 3).toOption.getD
          (StateManager.in_memory hashW)).tree.get_leaf 3 = some (bytes_to_field comm0) :=
  ⟨((process_deposit_c5 hashW (StateManager.in_memory hashW) comm0 3 (by decide)).2
      (by decide)).1,
   ((process_deposit_c5 hashW (StateManager.in_memory hashW) comm0 3 (by decide)).2
      (by decide)).2.1,
   ((process_deposit_c5 hashW (StateManager.in_memory hashW) comm0 3 (by decide)).2
      (by decide)).2.2.1 1 (by decide) (by decide),
   ((process_deposit_c5 hashW (StateManager.in_memory hashW) comm0 3 (by decide)).2
      (by decide)).2.2.2.1⟩
